import Mathlib

/-!
Verification of `src/utils.py` (deep-clustering auxiliary routines).

Shallow embedding conventions:

* Floating-point scalars are modelled by `Option ℚ`: `some q` is a finite
  value, `none` stands for a non-finite value (NaN; the theorems below are
  stated in regimes where infinities do not arise, e.g. non-negative inputs
  and denominators that are either zero or bounded away from overflow).
  Arithmetic on `none` propagates `none`, and division by an exact zero
  yields `none`, mirroring IEEE `0/0 = NaN` on the non-negative inputs the
  theorems quantify over.
* Abnormal termination of the Python code (a failed `assert`, or the
  `print('error'); return` path of `cluster_acc` which yields `None`)
  is modelled by an `Option`-valued result being `none`.
* Tensors are functions `Fin n → Fin k → Option ℚ`; label arrays are
  `List ℤ` (numpy integer arrays of arbitrary, not necessarily contiguous,
  labels).
-/

/-- Addition on embedded float scalars: non-finite operands propagate. -/
def fadd : Option ℚ → Option ℚ → Option ℚ
  | some a, some b => some (a + b)
  | _, _ => none

/-- Subtraction on embedded float scalars. -/
def fsub : Option ℚ → Option ℚ → Option ℚ
  | some a, some b => some (a - b)
  | _, _ => none

/-- Multiplication on embedded float scalars. -/
def fmul : Option ℚ → Option ℚ → Option ℚ
  | some a, some b => some (a * b)
  | _, _ => none

/-- Division on embedded float scalars.  Division by an exact zero produces a
non-finite value (`none`), as IEEE `0/0` does on the non-negative operands
used throughout `utils.py`. -/
def fdiv : Option ℚ → Option ℚ → Option ℚ
  | some a, some b => if b = 0 then none else some (a / b)
  | _, _ => none

/-- Sum of a list of embedded float scalars (`torch.sum` along an axis). -/
def fsum (l : List (Option ℚ)) : Option ℚ := l.foldr fadd (some 0)

/-- Test that an embedded scalar is a finite strictly positive value; this is
exactly the per-entry meaning of the Python check `q.min() > 0` (a NaN entry
makes the comparison false). -/
def fposB : Option ℚ → Bool
  | some q => decide (0 < q)
  | none => false

/-- Student-t kernel matrix of `q_distribute` (src/utils.py line 66):
`1.0 / (1.0 + torch.sum(torch.pow(Z.unsqueeze(1) - cluster_centers, 2), 2))`. -/
def qKernel {n d k : ℕ} (Z : Fin n → Fin d → Option ℚ) (C : Fin k → Fin d → Option ℚ)
    (i : Fin n) (j : Fin k) : Option ℚ :=
  fdiv (some 1)
    (fadd (some 1) (fsum (List.ofFn fun t => fmul (fsub (Z i t) (C j t)) (fsub (Z i t) (C j t)))))

/-- Embedding of `q_distribute` (src/utils.py lines 58-69): compute the kernel,
`assert q.min() > 0` (modelled as returning `none` when the assertion fires),
then row-normalize `q = (q.t() / torch.sum(q, 1)).t()`. -/
def q_distribute {n d k : ℕ} (Z : Fin n → Fin d → Option ℚ) (C : Fin k → Fin d → Option ℚ) :
    Option (Fin n → Fin k → Option ℚ) :=
  if ∀ i j, fposB (qKernel Z C i j) = true then
    some (fun i j => fdiv (qKernel Z C i j) (fsum (List.ofFn fun j' => qKernel Z C i j')))
  else none

/-- Column sums `Q.sum(0)` used by `target_distribution` (src/utils.py line 79). -/
def colSum {n k : ℕ} (Q : Fin n → Fin k → Option ℚ) (j : Fin k) : Option ℚ :=
  fsum (List.ofFn fun i => Q i j)

/-- Unnormalized weight of `target_distribution`: `weight = Q ** 2 / Q.sum(0)`
(src/utils.py line 79). -/
def tWeight {n k : ℕ} (Q : Fin n → Fin k → Option ℚ) (i : Fin n) (j : Fin k) : Option ℚ :=
  fdiv (fmul (Q i j) (Q i j)) (colSum Q j)

/-- Row sums `weight.sum(1)` of `target_distribution` (src/utils.py line 80). -/
def rowWeightSum {n k : ℕ} (Q : Fin n → Fin k → Option ℚ) (i : Fin n) : Option ℚ :=
  fsum (List.ofFn fun j => tWeight Q i j)

/-- Embedding of `target_distribution` (src/utils.py lines 72-81):
`weight = Q ** 2 / Q.sum(0); P = (weight.t() / weight.sum(1)).t()`.
There is no error path: the Python function is a straight-line tensor
computation, so the embedding is a total function. -/
def target_distribution {n k : ℕ} (Q : Fin n → Fin k → Option ℚ)
    (i : Fin n) (j : Fin k) : Option ℚ :=
  fdiv (tWeight Q i j) (rowWeightSum Q i)

/-! Basic facts about the scalar layer. -/

theorem fadd_none_right (x : Option ℚ) : fadd x none = none := by
  cases x <;> rfl

theorem fdiv_none_right (x : Option ℚ) : fdiv x none = none := by
  cases x <;> rfl

theorem fdiv_zero_right (x : Option ℚ) : fdiv x (some 0) = none := by
  cases x <;> simp [fdiv]

theorem fsum_ofFn_some {k : ℕ} (g : Fin k → ℚ) :
    fsum (List.ofFn fun j => some (g j)) = some (∑ j, g j) := by
  induction k with
  | zero => simp [fsum]
  | succ m ih =>
    rw [List.ofFn_succ, Fin.sum_univ_succ]
    simpa [fsum, fadd] using congrArg (fadd (some (g 0))) (ih (fun j => g j.succ))

theorem fsum_eq_none_of_mem {l : List (Option ℚ)} (h : none ∈ l) : fsum l = none := by
  induction l with
  | nil => cases h
  | cons x xs ih =>
    rcases List.mem_cons.1 h with h | h
    · cases h; rfl
    · show fadd x (fsum xs) = none
      rw [ih h, fadd_none_right]

theorem fposB_eq_true_iff (x : Option ℚ) : fposB x = true ↔ ∃ q, x = some q ∧ 0 < q := by
  cases x with
  | none => simp [fposB]
  | some q => simp [fposB]

/-- Kernel entries of `q_distribute` on finite inputs are finite and strictly
positive: the squared distance is a sum of squares, so `1 + dist² ≥ 1`. -/
theorem qKernel_pos {n d k : ℕ} (Z : Fin n → Fin d → Option ℚ) (C : Fin k → Fin d → Option ℚ)
    (hZ : ∀ i t, ∃ q, Z i t = some q) (hC : ∀ j t, ∃ q, C j t = some q) :
    ∀ i j, ∃ q, qKernel Z C i j = some q ∧ 0 < q := by
  choose z hz using hZ
  choose c hc using hC
  intro i j
  have hentry : (fun t => fmul (fsub (Z i t) (C j t)) (fsub (Z i t) (C j t)))
      = fun t => some ((z i t - c j t) ^ 2) := by
    funext t
    rw [hz, hc]
    simp [fsub, fmul, sq]
  have hsq : fsum (List.ofFn fun t => fmul (fsub (Z i t) (C j t)) (fsub (Z i t) (C j t)))
      = some (∑ t, (z i t - c j t) ^ 2) := by
    rw [hentry, fsum_ofFn_some]
  have hs : (0:ℚ) ≤ ∑ t, (z i t - c j t) ^ 2 :=
    Finset.sum_nonneg fun t _ => sq_nonneg _
  have hne : (1:ℚ) + ∑ t, (z i t - c j t) ^ 2 ≠ 0 := by positivity
  refine ⟨1 / (1 + ∑ t, (z i t - c j t) ^ 2), ?_, by positivity⟩
  rw [qKernel, hsq]
  simp [fadd, fdiv, hne]

/-- C2: on finite inputs with at least one sample and one center, `q_distribute`
succeeds and returns a matrix whose rows sum exactly to 1 and whose entries are
all finite and strictly positive. -/
theorem q_distribute_row_stochastic_pos {n d k : ℕ}
    (Z : Fin n → Fin d → Option ℚ) (C : Fin k → Fin d → Option ℚ)
    (_hn : 0 < n) (hk : 0 < k)
    (hZ : ∀ i t, ∃ q, Z i t = some q) (hC : ∀ j t, ∃ q, C j t = some q) :
    ∃ Q, q_distribute Z C = some Q ∧
      (∀ i, fsum (List.ofFn fun j => Q i j) = some 1) ∧
      (∀ i j, ∃ q, Q i j = some q ∧ 0 < q) := by
  choose kq hkq hkqpos using qKernel_pos Z C hZ hC
  have hguard : ∀ i j, fposB (qKernel Z C i j) = true := fun i j =>
    (fposB_eq_true_iff _).2 ⟨kq i j, hkq i j, hkqpos i j⟩
  have hQ : q_distribute Z C =
      some (fun i j => fdiv (qKernel Z C i j) (fsum (List.ofFn fun j' => qKernel Z C i j'))) := by
    rw [q_distribute, if_pos hguard]
  refine ⟨_, hQ, ?_, ?_⟩ <;> intro i
  all_goals
    have hrow : fsum (List.ofFn fun j' => qKernel Z C i j') = some (∑ j', kq i j') := by
      have : (fun j' => qKernel Z C i j') = fun j' => some (kq i j') := funext fun j' => hkq i j'
      rw [this, fsum_ofFn_some]
    have hSpos : 0 < ∑ j', kq i j' :=
      Finset.sum_pos (fun j' _ => hkqpos i j') (Finset.univ_nonempty_iff.2 ⟨⟨0, hk⟩⟩)
    have hSne : (∑ j', kq i j') ≠ 0 := ne_of_gt hSpos
    have hval : ∀ j, fdiv (qKernel Z C i j) (fsum (List.ofFn fun j' => qKernel Z C i j'))
        = some (kq i j / ∑ j', kq i j') := by
      intro j
      rw [hkq, hrow]
      simp [fdiv, hSne]
  · have : (fun j => fdiv (qKernel Z C i j) (fsum (List.ofFn fun j' => qKernel Z C i j')))
        = fun j => some (kq i j / ∑ j', kq i j') := funext hval
    rw [this, fsum_ofFn_some, ← Finset.sum_div, div_self hSne]
  · intro j
    exact ⟨_, hval j, div_pos (hkqpos i j) hSpos⟩

/-- Witness for `q_distribute_row_stochastic_pos` at `n = d = k = 1`, `Z = C = 0`. -/
theorem q_distribute_row_stochastic_pos_witness :
    0 < 1 ∧ ∃ Q, q_distribute (fun (_ : Fin 1) (_ : Fin 1) => (some (0:ℚ)))
        (fun (_ : Fin 1) (_ : Fin 1) => (some (0:ℚ))) = some Q ∧
      (∀ i, fsum (List.ofFn fun j => Q i j) = some 1) ∧
      (∀ i j, ∃ q, Q i j = some q ∧ 0 < q) :=
  ⟨Nat.one_pos,
    q_distribute_row_stochastic_pos _ _ Nat.one_pos Nat.one_pos
      (fun _ _ => ⟨0, rfl⟩) (fun _ _ => ⟨0, rfl⟩)⟩

/-- C7: `q_distribute` fails (the `assert q.min() > 0` fires) exactly when some
kernel entry is non-positive or non-finite, and a successfully returned
distribution has only finite strictly positive entries. -/
theorem q_distribute_guard {n d k : ℕ} (_hn : 0 < n) (_hk : 0 < k)
    (Z : Fin n → Fin d → Option ℚ) (C : Fin k → Fin d → Option ℚ) :
    (q_distribute Z C = none ↔ ∃ i j, fposB (qKernel Z C i j) = false) ∧
    (∀ Q, q_distribute Z C = some Q → ∀ i j, fposB (Q i j) = true) := by
  constructor
  · by_cases h : ∀ i j, fposB (qKernel Z C i j) = true
    · rw [q_distribute, if_pos h]
      simp only [reduceCtorEq, false_iff]
      rintro ⟨i, j, hij⟩
      rw [h i j] at hij
      cases hij
    · rw [q_distribute, if_neg h]
      push_neg at h
      obtain ⟨i, j, hij⟩ := h
      exact iff_of_true rfl ⟨i, j, by simpa using hij⟩
  · intro Q hQ i j
    by_cases h : ∀ i j, fposB (qKernel Z C i j) = true
    · rw [q_distribute, if_pos h] at hQ
      have hQdef : Q = fun i j =>
          fdiv (qKernel Z C i j) (fsum (List.ofFn fun j' => qKernel Z C i j')) :=
        (Option.some.inj hQ).symm
      choose kq hkq hkqpos using fun i j => (fposB_eq_true_iff _).1 (h i j)
      have hrow : fsum (List.ofFn fun j' => qKernel Z C i j') = some (∑ j', kq i j') := by
        have : (fun j' => qKernel Z C i j') = fun j' => some (kq i j') := funext fun j' => hkq i j'
        rw [this, fsum_ofFn_some]
      have hSpos : 0 < ∑ j', kq i j' :=
        Finset.sum_pos (fun j' _ => hkqpos i j') ⟨j, Finset.mem_univ j⟩
      rw [hQdef]
      rw [fposB_eq_true_iff]
      refine ⟨kq i j / ∑ j', kq i j', ?_, div_pos (hkqpos i j) hSpos⟩
      show fdiv (qKernel Z C i j) (fsum (List.ofFn fun j' => qKernel Z C i j')) = _
      rw [hkq, hrow]
      simp [fdiv, ne_of_gt hSpos]
    · rw [q_distribute, if_neg h] at hQ
      cases hQ

/-- Witness for `q_distribute_guard` at `n = d = k = 1`, `Z = C = 0`: the guard
does not fire and the returned entry is positive. -/
theorem q_distribute_guard_witness :
    0 < 1 ∧
    ((q_distribute (fun (_ : Fin 1) (_ : Fin 1) => (some (0:ℚ)))
        (fun (_ : Fin 1) (_ : Fin 1) => (some (0:ℚ))) = none ↔
      ∃ i j, fposB (qKernel (fun (_ : Fin 1) (_ : Fin 1) => (some (0:ℚ)))
        (fun (_ : Fin 1) (_ : Fin 1) => (some (0:ℚ))) i j) = false) ∧
    (∀ Q, q_distribute (fun (_ : Fin 1) (_ : Fin 1) => (some (0:ℚ)))
        (fun (_ : Fin 1) (_ : Fin 1) => (some (0:ℚ))) = some Q → ∀ i j, fposB (Q i j) = true)) :=
  ⟨Nat.one_pos, q_distribute_guard Nat.one_pos Nat.one_pos _ _⟩

/-- C3: if `Q` has finite strictly positive entries and rows summing exactly
to 1, then every row of `target_distribution Q` sums exactly to 1. -/
theorem target_distribution_row_stochastic {n k : ℕ} (Q : Fin n → Fin k → Option ℚ)
    (hpos : ∀ i j, ∃ q, Q i j = some q ∧ 0 < q)
    (hrow : ∀ i, fsum (List.ofFn fun j => Q i j) = some 1) :
    ∀ i, fsum (List.ofFn fun j => target_distribution Q i j) = some 1 := by
  choose q hq hqpos using hpos
  have hQcol : ∀ j, colSum Q j = some (∑ i', q i' j) := by
    intro j
    rw [colSum]
    have : (fun i' => Q i' j) = fun i' => some (q i' j) := funext fun i' => hq i' j
    rw [this, fsum_ofFn_some]
  intro i
  have hkuniv : (Finset.univ : Finset (Fin k)).Nonempty := by
    by_contra hemp
    rw [Finset.not_nonempty_iff_eq_empty] at hemp
    have h1 := hrow i
    have he : (fun j => Q i j) = fun j => some (q i j) := funext fun j => hq i j
    rw [he, fsum_ofFn_some, hemp, Finset.sum_empty] at h1
    exact one_ne_zero (Option.some.inj h1).symm
  have hcolpos : ∀ j, 0 < ∑ i', q i' j := fun j =>
    Finset.sum_pos (fun i' _ => hqpos i' j) ⟨i, Finset.mem_univ i⟩
  have hw : ∀ j, tWeight Q i j = some (q i j ^ 2 / ∑ i', q i' j) := by
    intro j
    rw [tWeight, hQcol, hq]
    simp [fmul, fdiv, ne_of_gt (hcolpos j), sq]
  have hW : rowWeightSum Q i = some (∑ j, q i j ^ 2 / ∑ i', q i' j) := by
    rw [rowWeightSum]
    have : (fun j => tWeight Q i j) = fun j => some (q i j ^ 2 / ∑ i', q i' j) := funext hw
    rw [this, fsum_ofFn_some]
  have hWpos : 0 < ∑ j, q i j ^ 2 / ∑ i', q i' j :=
    Finset.sum_pos (fun j _ => div_pos (pow_pos (hqpos i j) 2) (hcolpos j)) hkuniv
  have htd : ∀ j, target_distribution Q i j
      = some ((q i j ^ 2 / ∑ i', q i' j) / ∑ j', q i j' ^ 2 / ∑ i', q i' j') := by
    intro j
    rw [target_distribution, hw, hW]
    simp [fdiv, ne_of_gt hWpos]
  have : (fun j => target_distribution Q i j)
      = fun j => some ((q i j ^ 2 / ∑ i', q i' j) / ∑ j', q i j' ^ 2 / ∑ i', q i' j') :=
    funext htd
  rw [this, fsum_ofFn_some, ← Finset.sum_div, div_self (ne_of_gt hWpos)]

/-- Witness for `target_distribution_row_stochastic` at the 1×1 matrix `[[1]]`,
row 0. -/
theorem target_distribution_row_stochastic_witness :
    fsum (List.ofFn fun j => target_distribution
      (fun (_ : Fin 1) (_ : Fin 1) => (some (1:ℚ))) 0 j) = some 1 :=
  target_distribution_row_stochastic _ (fun _ _ => ⟨1, rfl, one_pos⟩)
    (fun _ => by simpa using fsum_ofFn_some (fun _ : Fin 1 => (1:ℚ))) 0

/-- C5 counterexample: `target_distribution` has no error path.  On the 1×1
matrix `[[0]]` — whose single column sums to zero (an empty cluster) — it does
not abort: it returns a matrix whose entry is the non-finite value arising from
`0/0`, refuting the claim that a zero-column input aborts with a diagnostic
rather than returning a NaN-containing result. -/
theorem target_distribution_zero_column_cex :
    colSum (fun (_ : Fin 1) (_ : Fin 1) => (some (0:ℚ))) 0 = some 0 ∧
    target_distribution (fun (_ : Fin 1) (_ : Fin 1) => (some (0:ℚ))) 0 0 = none := by
  have hcol : colSum (fun (_ : Fin 1) (_ : Fin 1) => (some (0:ℚ))) 0 = some 0 := by
    simpa using fsum_ofFn_some (fun _ : Fin 1 => (0:ℚ))
  refine ⟨hcol, ?_⟩
  have hw : tWeight (fun (_ : Fin 1) (_ : Fin 1) => (some (0:ℚ))) 0 0 = none := by
    rw [tWeight, hcol, fdiv_zero_right]
  have hrs : rowWeightSum (fun (_ : Fin 1) (_ : Fin 1) => (some (0:ℚ))) 0 = none :=
    fsum_eq_none_of_mem ((List.mem_ofFn _ _).2 ⟨0, hw⟩)
  rw [target_distribution, hrs, fdiv_none_right]

/-- C5 (amended): when `Q` has finite non-negative entries and some column sums
to exactly zero, `target_distribution` does not abort; the zero-column division
produces non-finite values that contaminate every entry of the returned matrix. -/
theorem target_distribution_zero_column_nan {n k : ℕ} (Q : Fin n → Fin k → Option ℚ)
    (_hQ : ∀ i j, ∃ q, Q i j = some q ∧ 0 ≤ q) (j₀ : Fin k)
    (h0 : colSum Q j₀ = some 0) :
    ∀ i j, target_distribution Q i j = none := by
  intro i j
  have hw : tWeight Q i j₀ = none := by
    rw [tWeight, h0, fdiv_zero_right]
  have hrs : rowWeightSum Q i = none :=
    fsum_eq_none_of_mem ((List.mem_ofFn _ _).2 ⟨j₀, hw⟩)
  rw [target_distribution, hrs, fdiv_none_right]

/-- Witness for `target_distribution_zero_column_nan` on the 1×1 zero matrix,
at entry (0, 0). -/
theorem target_distribution_zero_column_nan_witness :
    target_distribution (fun (_ : Fin 1) (_ : Fin 1) => (some (0:ℚ))) 0 0 = none :=
  target_distribution_zero_column_nan _ (fun _ _ => ⟨0, rfl, le_refl 0⟩) 0
    (by simpa using fsum_ofFn_some (fun _ : Fin 1 => (0:ℚ))) 0 0

/-- C9: every uniform row-stochastic matrix (all entries `1/k`, for any shape,
in particular 10 × 3 with entries `1/3`) is an exact fixed point of
`target_distribution`. -/
theorem target_distribution_uniform_fixed {n k : ℕ} (i : Fin n) (j : Fin k) :
    target_distribution (fun (_ : Fin n) (_ : Fin k) => some (1 / (k:ℚ))) i j
      = some (1 / (k:ℚ)) := by
  have hk : (0:ℚ) < (k:ℚ) := by
    exact_mod_cast j.pos
  have hn : (0:ℚ) < (n:ℚ) := by
    exact_mod_cast i.pos
  have hupos : (0:ℚ) < 1 / (k:ℚ) := by
    exact one_div_pos.2 hk
  have hcpos : (0:ℚ) < (n:ℚ) * (1 / (k:ℚ)) := mul_pos hn hupos
  have hapos : (0:ℚ) < (1 / (k:ℚ) * (1 / (k:ℚ))) / ((n:ℚ) * (1 / (k:ℚ))) :=
    div_pos (mul_pos hupos hupos) hcpos
  have hcol : ∀ j' : Fin k, colSum (fun (_ : Fin n) (_ : Fin k) => some (1 / (k:ℚ))) j'
      = some ((n:ℚ) * (1 / (k:ℚ))) := by
    intro j'
    rw [colSum, fsum_ofFn_some (fun _ : Fin n => 1 / (k:ℚ))]
    congr 1
    rw [Finset.sum_const, Finset.card_univ, Fintype.card_fin, nsmul_eq_mul]
  have hw : ∀ j' : Fin k, tWeight (fun (_ : Fin n) (_ : Fin k) => some (1 / (k:ℚ))) i j'
      = some ((1 / (k:ℚ) * (1 / (k:ℚ))) / ((n:ℚ) * (1 / (k:ℚ)))) := by
    intro j'
    rw [tWeight, hcol]
    show fdiv (fmul (some (1 / (k:ℚ))) (some (1 / (k:ℚ)))) (some ((n:ℚ) * (1 / (k:ℚ)))) = _
    rw [show fmul (some (1 / (k:ℚ))) (some (1 / (k:ℚ)))
        = some (1 / (k:ℚ) * (1 / (k:ℚ))) from rfl]
    rw [show ∀ x y : ℚ, fdiv (some x) (some y) = if y = 0 then none else some (x / y)
        from fun x y => rfl]
    rw [if_neg (ne_of_gt hcpos)]
  have hW : rowWeightSum (fun (_ : Fin n) (_ : Fin k) => some (1 / (k:ℚ))) i
      = some ((k:ℚ) * ((1 / (k:ℚ) * (1 / (k:ℚ))) / ((n:ℚ) * (1 / (k:ℚ))))) := by
    rw [rowWeightSum]
    have he : (fun j' => tWeight (fun (_ : Fin n) (_ : Fin k) => some (1 / (k:ℚ))) i j')
        = fun _ : Fin k => some ((1 / (k:ℚ) * (1 / (k:ℚ))) / ((n:ℚ) * (1 / (k:ℚ)))) :=
      funext hw
    rw [he, fsum_ofFn_some (fun _ : Fin k => (1 / (k:ℚ) * (1 / (k:ℚ))) / ((n:ℚ) * (1 / (k:ℚ))))]
    congr 1
    rw [Finset.sum_const, Finset.card_univ, Fintype.card_fin, nsmul_eq_mul]
  have hWpos : (0:ℚ) < (k:ℚ) * ((1 / (k:ℚ) * (1 / (k:ℚ))) / ((n:ℚ) * (1 / (k:ℚ)))) :=
    mul_pos hk hapos
  rw [target_distribution, hw, hW]
  rw [show ∀ x y : ℚ, fdiv (some x) (some y) = if y = 0 then none else some (x / y)
      from fun x y => rfl]
  rw [if_neg (ne_of_gt hWpos)]
  have harith : ∀ x : ℚ, x ≠ 0 → x / ((k:ℚ) * x) = 1 / (k:ℚ) := by
    intro x hx
    rw [mul_comm, div_mul_eq_div_div, div_self hx]
  rw [harith _ (ne_of_gt hapos)]

/-!
Embedding of `cluster_acc` (src/utils.py lines 84-130).

The external Munkres solver is modelled by a deterministic exhaustive minimum
over all assignments; every theorem below depends only on the returned
assignment having minimal total cost, which is the library's contract.
Python `set` iteration order (used for `l1` and `l2`) is immaterial to every
property proved below; the embedding uses `List.dedup` order.
-/

/-- Minimum of an integer list (`np.min(y_true)`, src/utils.py line 95).  The
Python call raises on an empty array; theorems about `cluster_acc` therefore
assume a nonempty input, and the empty case here carries a junk value. -/
def zmin : List ℤ → ℤ
  | [] => 0
  | x :: xs => xs.foldl min x

/-- Shifted ground truth `y_true = y_true - y_min` (src/utils.py lines 95-96).
The subtraction rebinds a fresh array, leaving the caller's array unchanged. -/
def shiftTrue (yt : List ℤ) : List ℤ := yt.map (fun v => v - zmin yt)

/-- The in-place repair loop of `cluster_acc` (src/utils.py lines 101-108):
`ind = 0; for i in l1: if i in l2: pass; else: y_pred[ind] = i; ind += 1`. -/
def repairLoop : List ℤ → List ℤ → List ℤ → ℕ → List ℤ
  | [], _, yp, _ => yp
  | i :: rest, l2, yp, ind =>
    if i ∈ l2 then repairLoop rest l2 yp ind
    else repairLoop rest l2 (yp.set ind i) (ind + 1)

/-- State of the caller's `y_pred` array after `cluster_acc`'s cardinality
reconciliation (src/utils.py lines 101-108): the array is written to only
under the `num_class1 != num_class2` branch. -/
def repairedYPred (yt yp : List ℤ) : List ℤ :=
  if (shiftTrue yt).dedup.length ≠ yp.dedup.length
  then repairLoop (shiftTrue yt).dedup yp.dedup yp 0
  else yp

/-- Contingency count: number of positions whose (shifted) true label is `a`
and predicted label is `b` — the entry `cost[i][j]` built in src/utils.py
lines 114-119 before negation. -/
def countPair (yz : List (ℤ × ℤ)) (a b : ℤ) : ℕ :=
  yz.countP fun tp => decide (tp.1 = a ∧ tp.2 = b)

/-- Total cost, for the Munkres objective, of the assignment matching row `i`
of the contingency matrix with the column holding label `q[i]`; the per-entry
negation is `cost = cost.__neg__()` of src/utils.py line 121. -/
def costTotal (yz : List (ℤ × ℤ)) (l1 q : List ℤ) : ℤ :=
  ((l1.zip q).map fun ab => -(countPair yz ab.1 ab.2 : ℤ)).sum

/-- Deterministic stand-in for `Munkres().compute` (src/utils.py lines 120-122):
among all candidate column orderings, return the first of minimal total cost. -/
def pickMin (f : List ℤ → ℤ) : List (List ℤ) → List ℤ
  | [] => []
  | c :: cs => cs.foldl (fun best p => if f p < f best then p else best) c

/-- Lookup of the matching for one predicted label: `pairs` holds
`(true label, matched predicted label)` rows. -/
def relabelFind (pairs : List (ℤ × ℤ)) (v : ℤ) : Option ℤ :=
  (pairs.find? fun ab => decide (ab.2 = v)).map Prod.fst

/-- Value written into `new_predict` (src/utils.py lines 123-127) for a
position predicted as `v`; positions not covered by the matching keep the
`np.zeros` default 0 (unreachable after a successful match). -/
def relabel (pairs : List (ℤ × ℤ)) (v : ℤ) : ℤ :=
  (relabelFind pairs v).getD 0

/-- Per-class F1 score over the zipped (truth, prediction) positions, with the
`zero_division=0` convention of `sklearn.metrics.f1_score`. -/
def f1Class (t p : List ℤ) (c : ℤ) : ℚ :=
  let tpc := (t.zip p).countP fun ab => decide (ab.1 = c ∧ ab.2 = c)
  let fpc := (t.zip p).countP fun ab => decide (ab.1 ≠ c ∧ ab.2 = c)
  let fnc := (t.zip p).countP fun ab => decide (ab.1 = c ∧ ab.2 ≠ c)
  if 2 * tpc + fpc + fnc = 0 then 0
  else (2 * tpc : ℚ) / ((2 * tpc + fpc + fnc : ℕ) : ℚ)

/-- Macro-averaged F1, `sklearn.metrics.f1_score(average='macro')`: unweighted
mean of per-class F1 over the labels present in either array. -/
def f1Macro (t p : List ℤ) : ℚ :=
  (((t ++ p).dedup.map (f1Class t p)).sum) / (((t ++ p).dedup.length : ℕ) : ℚ)

/-- Matched column ordering returned by the assignment solver: entry `i` is the
predicted label matched to true label `l1[i]` (src/utils.py lines 120-122,
`indexes = m.compute(cost)` over the negated contingency matrix). -/
def chosenCols (yt' yp : List ℤ) : List ℤ :=
  pickMin (costTotal (yt'.zip yp) yt'.dedup) yp.dedup.permutations

/-- The remapped prediction array `new_predict` (src/utils.py lines 123-127). -/
def newPredict (yt' yp : List ℤ) : List ℤ :=
  yp.map (relabel (yt'.dedup.zip (chosenCols yt' yp)))

/-- Fraction of agreeing positions over `nlen` samples,
`metrics.accuracy_score(y_true, new_predict)` (src/utils.py line 128). -/
def accScore (t p : List ℤ) (nlen : ℕ) : ℚ :=
  (((t.zip p).countP fun tp => decide (tp.1 = tp.2) : ℕ) : ℚ) / (nlen : ℚ)

/-- Embedding of `cluster_acc` (src/utils.py lines 84-130): shift `y_true`,
repair `y_pred` in place if the distinct-label counts differ, fail (`None`,
modelled as `none`) if they still differ, otherwise solve the minimum-cost
assignment over the negated contingency matrix, remap predictions, and score
accuracy and macro-F1 against the shifted truth. -/
def cluster_acc (yt yp0 : List ℤ) : Option (ℚ × ℚ) :=
  let yt' := shiftTrue yt
  let yp := repairedYPred yt yp0
  if yt'.dedup.length ≠ yp.dedup.length then none
  else some (accScore yt' (newPredict yt' yp) yt.length, f1Macro yt' (newPredict yt' yp))

/-- Number of positions whose (truth, prediction) pair is classified correctly
by the matching `pairs`. -/
def matchCount (yz : List (ℤ × ℤ)) (pairs : List (ℤ × ℤ)) : ℕ :=
  yz.countP fun tp => decide (relabelFind pairs tp.2 = some tp.1)

/-- Maximum of a list of naturals. -/
def natMaxList (l : List ℕ) : ℕ := l.foldr max 0

/-- Modelled from the spec (claim C1's right-hand side): the overlap achieved
by one bijection from distinct predicted labels to distinct true labels, the
bijection being `yp.dedup[j] ↦ q[j]` for an ordering `q` of `yt.dedup`: the
number of positions `i` with `σ(y_pred[i]) = y_true[i]`. -/
def specOverlap (yt yp q : List ℤ) : ℕ :=
  matchCount (yt.zip yp) (q.zip yp.dedup)

/-- Modelled from the spec (claim C1's right-hand side): the maximum, over all
bijections from the distinct predicted labels to the distinct true labels, of
the fraction of positions classified correctly. -/
def specMaxAcc (yt yp : List ℤ) : ℚ :=
  ((natMaxList (yt.dedup.permutations.map (specOverlap yt yp)) : ℕ) : ℚ) / (yt.length : ℚ)

/-- Total overlap of a matching given directly by its pairs list. -/
def overlapTotal (yz : List (ℤ × ℤ)) (pairs : List (ℤ × ℤ)) : ℕ :=
  (pairs.map fun ab => countPair yz ab.1 ab.2).sum

theorem costTotal_eq_neg_overlap (yz : List (ℤ × ℤ)) (l1 q : List ℤ) :
    costTotal yz l1 q = -(overlapTotal yz (l1.zip q) : ℤ) := by
  rw [costTotal, overlapTotal]
  induction l1.zip q with
  | nil => simp
  | cons ab P ih =>
    simp only [List.map_cons, List.sum_cons, ih]
    push_cast
    ring

theorem foldl_pickMin_mem (f : List ℤ → ℤ) :
    ∀ (cs : List (List ℤ)) (c : List ℤ),
      cs.foldl (fun best p => if f p < f best then p else best) c ∈ c :: cs := by
  intro cs
  induction cs with
  | nil => intro c; simp
  | cons d ds ih =>
    intro c
    have h := ih (if f d < f c then d else c)
    rw [List.foldl_cons]
    rcases List.mem_cons.1 h with h | h
    · rw [h]
      split_ifs
      · exact List.mem_cons.2 (Or.inr (List.mem_cons_self _ _))
      · exact List.mem_cons_self _ _
    · exact List.mem_cons.2 (Or.inr (List.mem_cons.2 (Or.inr h)))

theorem foldl_pickMin_le (f : List ℤ → ℤ) :
    ∀ (cs : List (List ℤ)) (c : List ℤ),
      f (cs.foldl (fun best p => if f p < f best then p else best) c) ≤ f c ∧
      ∀ p ∈ cs, f (cs.foldl (fun best p => if f p < f best then p else best) c) ≤ f p := by
  intro cs
  induction cs with
  | nil => intro c; exact ⟨le_refl _, by simp⟩
  | cons d ds ih =>
    intro c
    rw [List.foldl_cons]
    obtain ⟨h1, h2⟩ := ih (if f d < f c then d else c)
    have hc : f (if f d < f c then d else c) ≤ f c := by
      split_ifs with h
      · exact le_of_lt h
      · exact le_refl _
    have hd : f (if f d < f c then d else c) ≤ f d := by
      split_ifs with h
      · exact le_refl _
      · exact not_lt.1 h
    refine ⟨le_trans h1 hc, ?_⟩
    intro p hp
    rcases List.mem_cons.1 hp with hp | hp
    · rw [hp]
      exact le_trans h1 hd
    · exact h2 p hp

theorem pickMin_mem (f : List ℤ → ℤ) (cs : List (List ℤ)) (h : cs ≠ []) :
    pickMin f cs ∈ cs := by
  cases cs with
  | nil => exact absurd rfl h
  | cons c cs' => exact foldl_pickMin_mem f cs' c

theorem pickMin_le (f : List ℤ → ℤ) (cs : List (List ℤ)) :
    ∀ p ∈ cs, f (pickMin f cs) ≤ f p := by
  cases cs with
  | nil => simp
  | cons c cs' =>
    intro p hp
    rcases List.mem_cons.1 hp with hp | hp
    · exact hp ▸ (foldl_pickMin_le f cs' c).1
    · exact (foldl_pickMin_le f cs' c).2 p hp

theorem le_natMaxList {l : List ℕ} {x : ℕ} (h : x ∈ l) : x ≤ natMaxList l := by
  induction l with
  | nil => cases h
  | cons a l ih =>
    rcases List.mem_cons.1 h with h | h
    · exact h ▸ le_max_left _ _
    · exact le_trans (ih h) (le_max_right _ _)

theorem natMaxList_le {l : List ℕ} {m : ℕ} (h : ∀ x ∈ l, x ≤ m) : natMaxList l ≤ m := by
  induction l with
  | nil => exact Nat.zero_le m
  | cons a l ih =>
    exact max_le (h a (List.mem_cons_self _ _)) (ih fun x hx => h x (List.mem_cons.2 (Or.inr hx)))

theorem relabelFind_cons (a b : ℤ) (rest : List (ℤ × ℤ)) (v : ℤ) :
    relabelFind ((a, b) :: rest) v = if b = v then some a else relabelFind rest v := by
  rw [relabelFind, List.find?_cons]
  by_cases h : b = v
  · simp [h]
  · simp [h, relabelFind]

theorem relabelFind_eq_none {pairs : List (ℤ × ℤ)} {v : ℤ}
    (h : v ∉ pairs.map Prod.snd) : relabelFind pairs v = none := by
  have hfind : pairs.find? (fun ab => decide (ab.2 = v)) = none := by
    rw [List.find?_eq_none]
    intro ab hab hd
    rw [decide_eq_true_eq] at hd
    exact h (hd ▸ List.mem_map_of_mem Prod.snd hab)
  rw [relabelFind, hfind]
  rfl

theorem relabelFind_isSome_of_mem {pairs : List (ℤ × ℤ)} {v : ℤ}
    (h : v ∈ pairs.map Prod.snd) : ∃ a, relabelFind pairs v = some a := by
  induction pairs with
  | nil => cases h
  | cons ab rest ih =>
    rcases ab with ⟨a, b⟩
    rw [relabelFind_cons]
    by_cases hb : b = v
    · rw [if_pos hb]
      exact ⟨a, rfl⟩
    · rw [if_neg hb]
      apply ih
      rcases List.mem_cons.1 h with h | h
      · exact absurd h.symm hb
      · exact h

theorem matchCount_nil_pairs (yz : List (ℤ × ℤ)) : matchCount yz [] = 0 := by
  rw [matchCount, List.countP_eq_zero]
  intro tp _
  simp [relabelFind]

theorem matchCount_cons (yz : List (ℤ × ℤ)) (a b : ℤ) (rest : List (ℤ × ℤ))
    (hb : b ∉ rest.map Prod.snd) :
    matchCount yz ((a, b) :: rest) = countPair yz a b + matchCount yz rest := by
  induction yz with
  | nil => rfl
  | cons tp yz' ih =>
    simp only [matchCount, countPair, List.countP_cons] at ih ⊢
    rw [ih]
    suffices h : (if decide (relabelFind ((a, b) :: rest) tp.2 = some tp.1) = true then 1 else 0)
        = (if decide (tp.1 = a ∧ tp.2 = b) = true then (1:ℕ) else 0)
          + (if decide (relabelFind rest tp.2 = some tp.1) = true then 1 else 0) by omega
    rw [relabelFind_cons]
    by_cases h2 : b = tp.2
    · rw [if_pos h2]
      have hrest : relabelFind rest tp.2 = none := relabelFind_eq_none (h2 ▸ hb)
      rw [hrest]
      by_cases h1 : tp.1 = a
      · simp [h1, h2.symm]
      · have h1' : ¬a = tp.1 := fun hh => h1 hh.symm
        simp [h2.symm, h1, h1']
    · rw [if_neg h2]
      have hpair : ¬(tp.1 = a ∧ tp.2 = b) := fun hh => h2 hh.2.symm
      simp [hpair]

theorem overlapTotal_eq_matchCount (yz : List (ℤ × ℤ)) :
    ∀ pairs : List (ℤ × ℤ), (pairs.map Prod.snd).Nodup →
      overlapTotal yz pairs = matchCount yz pairs := by
  intro pairs
  induction pairs with
  | nil =>
    intro _
    rw [matchCount_nil_pairs]
    rfl
  | cons ab rest ih =>
    intro hnd
    rcases ab with ⟨a, b⟩
    rw [List.map_cons, List.nodup_cons] at hnd
    rw [overlapTotal, List.map_cons, List.sum_cons, matchCount_cons yz a b rest hnd.1]
    have htail : (rest.map fun ab => countPair yz ab.1 ab.2).sum = matchCount yz rest :=
      ih hnd.2
    rw [htail]

theorem exists_perm_map_eq {α β : Type} [DecidableEq α] (g : α → β) :
    ∀ (l : List β) (P : List α), List.Perm (P.map g) l →
      ∃ P', List.Perm P' P ∧ P'.map g = l := by
  intro l
  induction l with
  | nil =>
    intro P h
    have hP : P = [] := List.map_eq_nil_iff.1 h.eq_nil
    exact ⟨[], by rw [hP], rfl⟩
  | cons b l' ih =>
    intro P h
    have hb : b ∈ P.map g := h.mem_iff.2 (List.mem_cons_self b l')
    obtain ⟨a, ha, hab⟩ := List.mem_map.1 hb
    have hPa : List.Perm P (a :: P.erase a) := List.perm_cons_erase ha
    have h2 : List.Perm ((P.erase a).map g) l' := by
      have hm : List.Perm (P.map g) (g a :: (P.erase a).map g) := hPa.map g
      have hbl : List.Perm (g a :: (P.erase a).map g) (b :: l') := hm.symm.trans h
      rw [hab] at hbl
      exact hbl.cons_inv
    obtain ⟨P'', hP''perm, hP''map⟩ := ih (P.erase a) h2
    refine ⟨a :: P'', ?_, ?_⟩
    · exact (hP''perm.cons a).trans hPa.symm
    · rw [List.map_cons, hP''map, hab]

theorem relabelFind_perm {pairs pairs' : List (ℤ × ℤ)} (hperm : List.Perm pairs pairs')
    (hnd : (pairs.map Prod.snd).Nodup) (v : ℤ) :
    relabelFind pairs v = relabelFind pairs' v := by
  induction hperm with
  | nil => rfl
  | cons x _ ih =>
    rcases x with ⟨a, b⟩
    rw [List.map_cons, List.nodup_cons] at hnd
    rw [relabelFind_cons, relabelFind_cons, ih hnd.2]
  | swap x y l =>
    rcases x with ⟨a, b⟩
    rcases y with ⟨c, d⟩
    rw [relabelFind_cons, relabelFind_cons, relabelFind_cons, relabelFind_cons]
    by_cases h1 : d = v <;> by_cases h2 : b = v
    · exfalso
      rw [List.map_cons, List.map_cons, List.nodup_cons] at hnd
      exact hnd.1 (by rw [h1, ← h2]; exact List.mem_cons_self _ _)
    · simp [h1, h2]
    · simp [h1, h2]
    · simp [h1, h2]
  | trans h₁ _ ih₁ ih₂ =>
    rw [ih₁ hnd, ih₂ ((h₁.map Prod.snd).nodup_iff.1 hnd)]

theorem matchCount_perm (yz : List (ℤ × ℤ)) {pairs pairs' : List (ℤ × ℤ)}
    (hperm : List.Perm pairs pairs') (hnd : (pairs.map Prod.snd).Nodup) :
    matchCount yz pairs = matchCount yz pairs' := by
  rw [matchCount, matchCount]
  apply List.countP_congr
  intro tp _
  rw [relabelFind_perm hperm hnd tp.2]

theorem cluster_acc_eq_none (yt yp0 : List ℤ)
    (h : (shiftTrue yt).dedup.length ≠ (repairedYPred yt yp0).dedup.length) :
    cluster_acc yt yp0 = none := by
  simp only [cluster_acc]
  rw [if_pos h]

theorem cluster_acc_eq_some (yt yp0 : List ℤ)
    (h : (shiftTrue yt).dedup.length = (repairedYPred yt yp0).dedup.length) :
    cluster_acc yt yp0 =
      some (accScore (shiftTrue yt) (newPredict (shiftTrue yt) (repairedYPred yt yp0)) yt.length,
        f1Macro (shiftTrue yt) (newPredict (shiftTrue yt) (repairedYPred yt yp0))) := by
  simp only [cluster_acc]
  rw [if_neg (not_ne_iff.2 h)]

theorem relabelFind_map_fst (f : ℤ → ℤ) (pairs : List (ℤ × ℤ)) (v : ℤ) :
    relabelFind (pairs.map (Prod.map f id)) v = (relabelFind pairs v).map f := by
  induction pairs with
  | nil => rfl
  | cons ab rest ih =>
    rcases ab with ⟨a, b⟩
    rw [List.map_cons]
    show relabelFind ((f a, b) :: rest.map (Prod.map f id)) v = _
    rw [relabelFind_cons, relabelFind_cons]
    by_cases h : b = v
    · rw [if_pos h, if_pos h]
      rfl
    · rw [if_neg h, if_neg h, ih]

theorem relabelFind_map_snd_inj {g : ℤ → ℤ} (hinj : Function.Injective g)
    (pairs : List (ℤ × ℤ)) (v : ℤ) :
    relabelFind (pairs.map (Prod.map id g)) (g v) = relabelFind pairs v := by
  induction pairs with
  | nil => rfl
  | cons ab rest ih =>
    rcases ab with ⟨a, b⟩
    rw [List.map_cons]
    show relabelFind ((a, g b) :: rest.map (Prod.map id g)) (g v) = _
    rw [relabelFind_cons, relabelFind_cons]
    by_cases h : b = v
    · rw [if_pos (congrArg g h), if_pos h]
    · rw [if_neg (fun hh => h (hinj hh)), if_neg h, ih]

theorem dedup_map_inj {f : ℤ → ℤ} (hinj : Function.Injective f) (l : List ℤ) :
    (l.map f).dedup = l.dedup.map f := by
  induction l with
  | nil => rfl
  | cons a l ih =>
    rw [List.map_cons]
    by_cases h : a ∈ l
    · rw [List.dedup_cons_of_mem h, List.dedup_cons_of_mem (List.mem_map_of_mem f h), ih]
    · rw [List.dedup_cons_of_not_mem h, List.dedup_cons_of_not_mem
        (fun hm => h (by obtain ⟨x, hx, he⟩ := List.mem_map.1 hm; exact hinj he ▸ hx)),
        List.map_cons, ih]

theorem natMaxList_matchCount_transpose (yz : List (ℤ × ℤ)) (l1 ypd : List ℤ)
    (h2 : ypd.Nodup) (hlen : l1.length = ypd.length) :
    natMaxList (ypd.permutations.map fun q => matchCount yz (l1.zip q))
      = natMaxList (l1.permutations.map fun q => matchCount yz (q.zip ypd)) := by
  apply le_antisymm
  · apply natMaxList_le
    intro x hx
    obtain ⟨qcol, hqmem, hqval⟩ := List.mem_map.1 hx
    have hqperm : List.Perm qcol ypd := List.mem_permutations.1 hqmem
    have hlen2 : l1.length = qcol.length := by rw [hlen, hqperm.length_eq]
    have hsnd : (l1.zip qcol).map Prod.snd = qcol :=
      List.map_snd_zip _ _ (le_of_eq hlen2.symm)
    have hfst : (l1.zip qcol).map Prod.fst = l1 :=
      List.map_fst_zip _ _ (le_of_eq hlen2)
    have hsndperm : List.Perm ((l1.zip qcol).map Prod.snd) ypd := by
      rw [hsnd]
      exact hqperm
    obtain ⟨P', hP'perm, hP'map⟩ := exists_perm_map_eq Prod.snd ypd (l1.zip qcol) hsndperm
    have hq' : List.Perm (P'.map Prod.fst) l1 := by
      have hh := hP'perm.map Prod.fst
      rw [hfst] at hh
      exact hh
    have hP'zip : (P'.map Prod.fst).zip ypd = P' := by
      rw [← hP'map]
      exact (List.zip_map' Prod.fst Prod.snd P').trans (by simp)
    have hval2 : matchCount yz (l1.zip qcol) = matchCount yz P' := by
      apply matchCount_perm yz hP'perm.symm
      rw [hsnd]
      exact hqperm.nodup_iff.2 h2
    apply le_natMaxList
    rw [← hqval, hval2, ← hP'zip]
    exact List.mem_map_of_mem _ (List.mem_permutations.2 hq')
  · apply natMaxList_le
    intro x hx
    obtain ⟨q, hqmem, hqval⟩ := List.mem_map.1 hx
    have hqperm : List.Perm q l1 := List.mem_permutations.1 hqmem
    have hlen2 : q.length = ypd.length := by rw [hqperm.length_eq, hlen]
    have hfst : (q.zip ypd).map Prod.fst = q :=
      List.map_fst_zip _ _ (le_of_eq hlen2)
    have hsnd : (q.zip ypd).map Prod.snd = ypd :=
      List.map_snd_zip _ _ (le_of_eq hlen2.symm)
    have hfstperm : List.Perm ((q.zip ypd).map Prod.fst) l1 := by
      rw [hfst]
      exact hqperm
    obtain ⟨P', hP'perm, hP'map⟩ := exists_perm_map_eq Prod.fst l1 (q.zip ypd) hfstperm
    have hqcol : List.Perm (P'.map Prod.snd) ypd := by
      have hh := hP'perm.map Prod.snd
      rw [hsnd] at hh
      exact hh
    have hP'zip : l1.zip (P'.map Prod.snd) = P' := by
      rw [← hP'map]
      exact (List.zip_map' Prod.fst Prod.snd P').trans (by simp)
    have hval2 : matchCount yz (q.zip ypd) = matchCount yz P' := by
      apply matchCount_perm yz hP'perm.symm
      rw [hsnd]
      exact h2
    apply le_natMaxList
    rw [← hqval, hval2, ← hP'zip]
    exact List.mem_map_of_mem _ (List.mem_permutations.2 hqcol)

theorem chosenCols_mem (yt' yp : List ℤ) : chosenCols yt' yp ∈ yp.dedup.permutations := by
  apply pickMin_mem
  intro h
  have hself : yp.dedup ∈ yp.dedup.permutations := List.mem_permutations.2 (List.Perm.refl _)
  rw [h] at hself
  cases hself

theorem chosenCols_max (yt' yp : List ℤ) {q : List ℤ} (hq : q ∈ yp.dedup.permutations) :
    overlapTotal (yt'.zip yp) (yt'.dedup.zip q)
      ≤ overlapTotal (yt'.zip yp) (yt'.dedup.zip (chosenCols yt' yp)) := by
  have hcost := pickMin_le (costTotal (yt'.zip yp) yt'.dedup) yp.dedup.permutations q hq
  rw [costTotal_eq_neg_overlap, costTotal_eq_neg_overlap] at hcost
  exact_mod_cast neg_le_neg_iff.1 hcost

theorem newPredict_countP (yt' yp : List ℤ)
    (hcard : yt'.dedup.length = yp.dedup.length) :
    ((yt'.zip (newPredict yt' yp)).countP fun tp => decide (tp.1 = tp.2))
      = matchCount (yt'.zip yp) (yt'.dedup.zip (chosenCols yt' yp)) := by
  have hqperm : List.Perm (chosenCols yt' yp) yp.dedup :=
    List.mem_permutations.1 (chosenCols_mem yt' yp)
  have hlq : yt'.dedup.length = (chosenCols yt' yp).length := by
    rw [hcard, hqperm.length_eq]
  rw [newPredict, List.zip_map_right, List.countP_map, matchCount]
  apply List.countP_congr
  intro tp htp
  have hv : tp.2 ∈ yp := (List.of_mem_zip htp).2
  have hvq : tp.2 ∈ chosenCols yt' yp := hqperm.mem_iff.2 (List.mem_dedup.2 hv)
  have hsnd : (yt'.dedup.zip (chosenCols yt' yp)).map Prod.snd = chosenCols yt' yp :=
    List.map_snd_zip _ _ (le_of_eq hlq.symm)
  obtain ⟨a, ha⟩ := @relabelFind_isSome_of_mem
    (yt'.dedup.zip (chosenCols yt' yp)) tp.2 (by rw [hsnd]; exact hvq)
  simp only [Function.comp_apply, Prod.map_fst, Prod.map_snd, id_eq, decide_eq_true_eq,
    relabel, ha, Option.getD_some]
  constructor
  · intro h
    rw [h]
  · intro h
    exact (Option.some.inj h).symm

theorem matchCount_shift {f : ℤ → ℤ} (hinj : Function.Injective f) (yt yp q : List ℤ) :
    matchCount ((yt.map f).zip yp) ((yt.dedup.map f).zip q)
      = matchCount (yt.zip yp) (yt.dedup.zip q) := by
  rw [List.zip_map_left, List.zip_map_left, matchCount, matchCount, List.countP_map]
  apply List.countP_congr
  intro tp htp
  simp only [Function.comp_apply, Prod.map_fst, Prod.map_snd, id_eq, decide_eq_true_eq]
  rw [relabelFind_map_fst]
  cases relabelFind (yt.dedup.zip q) tp.2 with
  | none => simp
  | some a => simp [hinj.eq_iff]

theorem accScore_eq_specMax (yt yp : List ℤ)
    (hcard : yt.dedup.length = yp.dedup.length) :
    accScore (shiftTrue yt) (newPredict (shiftTrue yt) yp) yt.length = specMaxAcc yt yp := by
  have hfinj : Function.Injective (fun v : ℤ => v - zmin yt) := by
    intro x y h
    dsimp at h
    omega
  have hl1 : (shiftTrue yt).dedup = yt.dedup.map (fun v => v - zmin yt) :=
    dedup_map_inj hfinj yt
  have hcard' : (shiftTrue yt).dedup.length = yp.dedup.length := by
    rw [hl1, List.length_map]
    exact hcard
  have hqperm : List.Perm (chosenCols (shiftTrue yt) yp) yp.dedup :=
    List.mem_permutations.1 (chosenCols_mem _ _)
  have hqnd : (chosenCols (shiftTrue yt) yp).Nodup := hqperm.nodup_iff.2 (List.nodup_dedup yp)
  have hlq : (shiftTrue yt).dedup.length = (chosenCols (shiftTrue yt) yp).length := by
    rw [hcard', hqperm.length_eq]
  have hsndC : ((shiftTrue yt).dedup.zip (chosenCols (shiftTrue yt) yp)).map Prod.snd
      = chosenCols (shiftTrue yt) yp :=
    List.map_snd_zip _ _ (le_of_eq hlq.symm)
  have h1 := newPredict_countP (shiftTrue yt) yp hcard'
  have h2 : matchCount ((shiftTrue yt).zip yp)
        ((shiftTrue yt).dedup.zip (chosenCols (shiftTrue yt) yp))
      = overlapTotal ((shiftTrue yt).zip yp)
        ((shiftTrue yt).dedup.zip (chosenCols (shiftTrue yt) yp)) :=
    (overlapTotal_eq_matchCount _ _ (by rw [hsndC]; exact hqnd)).symm
  have h3 : overlapTotal ((shiftTrue yt).zip yp)
        ((shiftTrue yt).dedup.zip (chosenCols (shiftTrue yt) yp))
      = natMaxList (yp.dedup.permutations.map fun q =>
          overlapTotal ((shiftTrue yt).zip yp) ((shiftTrue yt).dedup.zip q)) := by
    apply le_antisymm
    · exact le_natMaxList (List.mem_map_of_mem _ (chosenCols_mem _ _))
    · apply natMaxList_le
      intro x hx
      obtain ⟨q, hqmem, hqval⟩ := List.mem_map.1 hx
      rw [← hqval]
      exact chosenCols_max _ _ hqmem
  have h4 : (yp.dedup.permutations.map fun q =>
        overlapTotal ((shiftTrue yt).zip yp) ((shiftTrue yt).dedup.zip q))
      = yp.dedup.permutations.map fun q =>
        matchCount ((shiftTrue yt).zip yp) ((shiftTrue yt).dedup.zip q) := by
    apply List.map_congr_left
    intro q hq
    have hqp : List.Perm q yp.dedup := List.mem_permutations.1 hq
    have hql : (shiftTrue yt).dedup.length = q.length := by
      rw [hcard', hqp.length_eq]
    exact overlapTotal_eq_matchCount _ _ (by
      rw [List.map_snd_zip _ _ (le_of_eq hql.symm)]
      exact hqp.nodup_iff.2 (List.nodup_dedup yp))
  have h5 : (yp.dedup.permutations.map fun q =>
        matchCount ((shiftTrue yt).zip yp) ((shiftTrue yt).dedup.zip q))
      = yp.dedup.permutations.map fun q =>
        matchCount (yt.zip yp) (yt.dedup.zip q) := by
    apply List.map_congr_left
    intro q _
    rw [hl1, shiftTrue]
    exact matchCount_shift hfinj yt yp q
  have h6 : natMaxList (yp.dedup.permutations.map fun q =>
        matchCount (yt.zip yp) (yt.dedup.zip q))
      = natMaxList (yt.dedup.permutations.map fun q =>
        matchCount (yt.zip yp) (q.zip yp.dedup)) :=
    natMaxList_matchCount_transpose _ _ _ (List.nodup_dedup yp) hcard
  have hnum : ((shiftTrue yt).zip (newPredict (shiftTrue yt) yp)).countP
        (fun tp => decide (tp.1 = tp.2))
      = natMaxList (yt.dedup.permutations.map (specOverlap yt yp)) := by
    rw [h1, h2, h3, congrArg natMaxList h4, congrArg natMaxList h5, h6]
    rfl
  rw [accScore, specMaxAcc, hnum]

/-- Shared helper: with equal distinct-label counts the repair is skipped and
`cluster_acc` returns the maximal-overlap accuracy together with the macro-F1
of the remapped predictions. -/
theorem cluster_acc_specMax_helper (yt yp : List ℤ)
    (hcard : yt.dedup.length = yp.dedup.length) :
    cluster_acc yt yp = some (specMaxAcc yt yp,
      f1Macro (shiftTrue yt) (newPredict (shiftTrue yt) yp)) := by
  have hfinj : Function.Injective (fun v : ℤ => v - zmin yt) := by
    intro x y h
    dsimp at h
    omega
  have hl1 : (shiftTrue yt).dedup = yt.dedup.map (fun v => v - zmin yt) :=
    dedup_map_inj hfinj yt
  have hcard' : (shiftTrue yt).dedup.length = yp.dedup.length := by
    rw [hl1, List.length_map]
    exact hcard
  have hrep : repairedYPred yt yp = yp := by
    rw [repairedYPred, if_neg (not_ne_iff.2 hcard')]
  rw [cluster_acc_eq_some yt yp (by rw [hrep]; exact hcard'), hrep,
    accScore_eq_specMax yt yp hcard]

theorem specMaxAcc_map_inj (yt yp : List ℤ) {g : ℤ → ℤ}
    (hginj : Function.Injective g) :
    specMaxAcc yt (yp.map g) = specMaxAcc yt yp := by
  have hmaps : List.map (specOverlap yt (yp.map g)) yt.dedup.permutations
      = List.map (specOverlap yt yp) yt.dedup.permutations := by
    apply List.map_congr_left
    intro q _
    rw [specOverlap, specOverlap, dedup_map_inj hginj, List.zip_map_right,
      matchCount, matchCount, List.zip_map_right, List.countP_map]
    apply List.countP_congr
    intro tp _
    simp only [Function.comp_apply, Prod.map_fst, Prod.map_snd, id_eq, decide_eq_true_eq]
    rw [relabelFind_map_snd_inj hginj]
  rw [specMaxAcc, specMaxAcc, hmaps]

/-- C1: for equal-length, nonempty label arrays whose distinct-label sets have
equal cardinality, the accuracy returned by `cluster_acc` equals the maximum
over all bijections from distinct predicted labels to distinct true labels of
the fraction of positions classified correctly: the minimum-cost assignment
over the negated contingency matrix realizes the overlap-maximizing matching. -/
theorem cluster_acc_max_overlap (yt yp : List ℤ) (_hlen : yt.length = yp.length)
    (_hne : yt ≠ []) (hcard : yt.dedup.length = yp.dedup.length) :
    ∃ f1, cluster_acc yt yp = some (specMaxAcc yt yp, f1) :=
  ⟨_, cluster_acc_specMax_helper yt yp hcard⟩

/-- Witness for `cluster_acc_max_overlap` on `y_true = [0,0,1,1]`,
`y_pred = [5,5,7,7]`. -/
theorem cluster_acc_max_overlap_witness :
    (([0,0,1,1] : List ℤ).length = ([5,5,7,7] : List ℤ).length) ∧
    (([0,0,1,1] : List ℤ) ≠ []) ∧
    (([0,0,1,1] : List ℤ).dedup.length = ([5,5,7,7] : List ℤ).dedup.length) ∧
    ∃ f1, cluster_acc [0,0,1,1] [5,5,7,7] = some (specMaxAcc [0,0,1,1] [5,5,7,7], f1) :=
  ⟨by decide, by decide, by decide,
    cluster_acc_max_overlap [0,0,1,1] [5,5,7,7] (by decide) (by decide) (by decide)⟩

/-- Involution swapping the labels 0 and 5, used as a concrete bijective
relabeling of the predicted-label alphabet. -/
def piSwap : ℤ → ℤ := fun v => if v = 0 then 5 else if v = 5 then 0 else v

theorem piSwap_bijective : Function.Bijective piSwap := by
  have hinv : Function.Involutive piSwap := by
    intro v
    simp only [piSwap]
    split_ifs <;> omega
  exact hinv.bijective

/-- C4 counterexample: permutation invariance of `cluster_acc` fails when the
distinct-label cardinalities differ.  With `y_true = [0,0,1]` and
`y_pred = [5,5,5]` the in-place repair loop overwrites positions 0 and 1 with
the missing labels 0 and 1, producing three distinct predicted labels against
two true classes, so the call fails (`None`); after the bijective relabeling
`piSwap` (`5 ↔ 0`), the repair succeeds and the call returns a result, so the
two results differ. -/
theorem cluster_acc_perm_invariance_cex :
    Function.Bijective piSwap ∧
    cluster_acc [0,0,1] [5,5,5] = none ∧
    cluster_acc [0,0,1] (List.map piSwap [5,5,5]) ≠ cluster_acc [0,0,1] [5,5,5] :=
  ⟨piSwap_bijective, by decide, by decide⟩

/-- C4 (amended): when the distinct-label cardinalities of `y_true` and
`y_pred` are equal (so the lossy repair heuristic is skipped), the accuracy
component of `cluster_acc` is invariant under every bijective relabeling of
the predicted-label alphabet; the F1 component is determined by the external
solver's tie-breaking among optimal matchings, and invariance fails outright
when the cardinalities differ. -/
theorem cluster_acc_acc_perm_invariant (yt yp : List ℤ) (g : ℤ → ℤ)
    (hg : Function.Bijective g) (_hlen : yt.length = yp.length) (_hne : yt ≠ [])
    (hcard : yt.dedup.length = yp.dedup.length) :
    Option.map Prod.fst (cluster_acc yt yp)
      = Option.map Prod.fst (cluster_acc yt (yp.map g)) := by
  have hcard2 : yt.dedup.length = (yp.map g).dedup.length := by
    rw [dedup_map_inj hg.injective, List.length_map]
    exact hcard
  rw [cluster_acc_specMax_helper yt yp hcard,
    cluster_acc_specMax_helper yt (yp.map g) hcard2]
  simp only [Option.map_some']
  rw [specMaxAcc_map_inj yt yp hg.injective]

/-- Witness for `cluster_acc_acc_perm_invariant` with `piSwap` on
`y_true = [0,0,1,1]`, `y_pred = [5,5,7,7]`. -/
theorem cluster_acc_acc_perm_invariant_witness :
    (([0,0,1,1] : List ℤ).dedup.length = ([5,5,7,7] : List ℤ).dedup.length) ∧
    Option.map Prod.fst (cluster_acc [0,0,1,1] [5,5,7,7])
      = Option.map Prod.fst (cluster_acc [0,0,1,1] (List.map piSwap [5,5,7,7])) :=
  ⟨by decide, cluster_acc_acc_perm_invariant [0,0,1,1] [5,5,7,7] piSwap
    piSwap_bijective (by decide) (by decide) (by decide)⟩

/-- C6: if after the index-position relabeling heuristic the number of distinct
predicted labels still differs from the number of distinct (shifted) true
labels, `cluster_acc` fails synchronously: it returns `None` (modelled `none`)
and no partial (accuracy, f1) result. -/
theorem cluster_acc_mismatch_none (yt yp0 : List ℤ)
    (h : (shiftTrue yt).dedup.length ≠ (repairedYPred yt yp0).dedup.length) :
    cluster_acc yt yp0 = none :=
  cluster_acc_eq_none yt yp0 h

/-- Witness for `cluster_acc_mismatch_none`: `y_true = [0,1,1]`,
`y_pred = [7,7,7]` — the repair produces `[0,1,7]`, three distinct predicted
labels against two true classes. -/
theorem cluster_acc_mismatch_none_witness :
    ((shiftTrue [0,1,1]).dedup.length ≠ (repairedYPred [0,1,1] [7,7,7]).dedup.length) ∧
    cluster_acc [0,1,1] [7,7,7] = none :=
  ⟨by decide, cluster_acc_mismatch_none [0,1,1] [7,7,7] (by decide)⟩

/-- C10: `cluster_acc` leaves the caller's `y_pred` array unchanged whenever
the distinct-label counts agree on entry: the in-place writes happen only
under the cardinality-mismatch branch (`y_true` is never written: the min
shift rebinds a fresh array, mirrored here by `shiftTrue` being a derived
list). -/
theorem cluster_acc_no_mutation_when_counts_match (yt yp : List ℤ)
    (hcard : yt.dedup.length = yp.dedup.length) :
    repairedYPred yt yp = yp := by
  have hfinj : Function.Injective (fun v : ℤ => v - zmin yt) := by
    intro x y h
    dsimp at h
    omega
  have hl1 : (shiftTrue yt).dedup = yt.dedup.map (fun v => v - zmin yt) :=
    dedup_map_inj hfinj yt
  rw [repairedYPred, if_neg (not_ne_iff.2 (by rw [hl1, List.length_map]; exact hcard))]

/-- Witness for `cluster_acc_no_mutation_when_counts_match` on
`y_true = [3,4]`, `y_pred = [7,9]`. -/
theorem cluster_acc_no_mutation_when_counts_match_witness :
    (([3,4] : List ℤ).dedup.length = ([7,9] : List ℤ).dedup.length) ∧
    repairedYPred [3,4] [7,9] = [7,9] :=
  ⟨by decide, cluster_acc_no_mutation_when_counts_match [3,4] [7,9] (by decide)⟩

theorem zip_map_left_self (f : ℤ → ℤ) (l : List ℤ) :
    (l.map f).zip l = l.map fun a => (f a, a) := by
  simpa using List.zip_map' f id l

theorem zip_self_eq_map (l : List ℤ) : l.zip l = l.map fun a => (a, a) := by
  simpa using List.zip_map' id id l

theorem map_eq_of_zip {t p : List ℤ} (g : ℤ → ℤ) (hlen : t.length = p.length)
    (h : ∀ tp ∈ t.zip p, g tp.2 = tp.1) : p.map g = t := by
  induction t generalizing p with
  | nil =>
    cases p with
    | nil => rfl
    | cons b p => simp at hlen
  | cons a t ih =>
    cases p with
    | nil => simp at hlen
    | cons b p =>
      simp only [List.map_cons]
      have hhead : g b = a :=
        h (a, b) (by rw [List.zip_cons_cons]; exact List.mem_cons_self _ _)
      rw [hhead]
      congr 1
      exact ih (by simpa using hlen)
        (fun tp htp => h tp (by rw [List.zip_cons_cons]; exact List.mem_cons.2 (Or.inr htp)))

theorem sum_map_one (l : List ℤ) : (l.map fun _ => (1:ℚ)).sum = l.length := by
  induction l with
  | nil => simp
  | cons a l ih =>
    simp only [List.map_cons, List.sum_cons, ih, List.length_cons]
    push_cast
    ring

theorem f1Macro_self (t : List ℤ) (hne : t ≠ []) : f1Macro t t = 1 := by
  obtain ⟨a0, ha0⟩ := List.exists_mem_of_ne_nil t hne
  have hlabne : (t ++ t).dedup ≠ [] := by
    intro h
    have hmem : a0 ∈ (t ++ t).dedup := List.mem_dedup.2 (List.mem_append.2 (Or.inl ha0))
    rw [h] at hmem
    cases hmem
  have hone : ∀ c ∈ (t ++ t).dedup, f1Class t t c = 1 := by
    intro c hc
    have hct : c ∈ t := by
      rcases List.mem_append.1 (List.mem_dedup.1 hc) with h | h <;> exact h
    have hzz : t.zip t = t.map fun a => (a, a) := zip_self_eq_map t
    have htpc : ((t.zip t).countP fun ab => decide (ab.1 = c ∧ ab.2 = c)) = t.count c := by
      rw [hzz, List.countP_map, List.count_eq_countP]
      apply List.countP_congr
      intro b _
      simp only [Function.comp_apply, decide_eq_true_eq, beq_iff_eq]
      constructor
      · rintro ⟨h1, _⟩
        exact h1
      · intro h
        exact ⟨h, h⟩
    have hfpc : ((t.zip t).countP fun ab => decide (ab.1 ≠ c ∧ ab.2 = c)) = 0 := by
      rw [hzz, List.countP_map, List.countP_eq_zero]
      intro b _
      simp only [Function.comp_apply, decide_eq_true_eq]
      rintro ⟨h1, h2⟩
      exact h1 h2
    have hfnc : ((t.zip t).countP fun ab => decide (ab.1 = c ∧ ab.2 ≠ c)) = 0 := by
      rw [hzz, List.countP_map, List.countP_eq_zero]
      intro b _
      simp only [Function.comp_apply, decide_eq_true_eq]
      rintro ⟨h1, h2⟩
      exact h2 h1
    have hcpos : 0 < t.count c := List.count_pos_iff.2 hct
    simp only [f1Class]
    rw [htpc, hfpc, hfnc]
    rw [if_neg (by omega)]
    have h2 : (2 * t.count c + 0 + 0 : ℕ) = 2 * t.count c := by omega
    have hxpos : (0:ℚ) < 2 * (t.count c : ℚ) := by
      have h0 : (0:ℚ) < (t.count c : ℚ) := by exact_mod_cast hcpos
      linarith
    rw [h2]
    push_cast
    exact div_self (ne_of_gt hxpos)
  rw [f1Macro, List.map_congr_left hone, sum_map_one]
  exact div_self (Nat.cast_ne_zero.2 (fun h0 => hlabne (List.length_eq_zero.1 h0)))

/-- C8: for every nonempty integer label array `y` (including arrays whose
minimum label is nonzero), `cluster_acc y y` returns accuracy 1 and macro-F1 1:
the optimal matching pairs each shifted true label with its unshifted twin,
realizing the full overlap `n`, so `new_predict` coincides with the shifted
truth. -/
theorem cluster_acc_identity (y : List ℤ) (hne : y ≠ []) :
    cluster_acc y y = some (1, 1) := by
  have hfinj : Function.Injective (fun v : ℤ => v - zmin y) := by
    intro x y' h
    dsimp at h
    omega
  have hl1 : (shiftTrue y).dedup = y.dedup.map (fun v => v - zmin y) :=
    dedup_map_inj hfinj y
  have hcard' : (shiftTrue y).dedup.length = y.dedup.length := by
    rw [hl1, List.length_map]
  have hrep : repairedYPred y y = y := by
    rw [repairedYPred, if_neg (not_ne_iff.2 hcard')]
  have hqperm : List.Perm (chosenCols (shiftTrue y) y) y.dedup :=
    List.mem_permutations.1 (chosenCols_mem _ _)
  have hqnd : (chosenCols (shiftTrue y) y).Nodup := hqperm.nodup_iff.2 (List.nodup_dedup y)
  have hlq : (shiftTrue y).dedup.length = (chosenCols (shiftTrue y) y).length := by
    rw [hcard', hqperm.length_eq]
  have hsndC : ((shiftTrue y).dedup.zip (chosenCols (shiftTrue y) y)).map Prod.snd
      = chosenCols (shiftTrue y) y :=
    List.map_snd_zip _ _ (le_of_eq hlq.symm)
  have hyz : (shiftTrue y).zip y = y.map fun a => (a - zmin y, a) := by
    rw [shiftTrue]
    exact zip_map_left_self _ y
  have hdiag : overlapTotal ((shiftTrue y).zip y) ((shiftTrue y).dedup.zip y.dedup)
      = y.length := by
    rw [overlapTotal, hl1, zip_map_left_self (fun v => v - zmin y) y.dedup, List.map_map]
    have hcp : ∀ a : ℤ, countPair ((shiftTrue y).zip y) (a - zmin y) a = y.count a := by
      intro a
      rw [countPair, hyz, List.countP_map, List.count_eq_countP]
      apply List.countP_congr
      intro b _
      simp only [Function.comp_apply, decide_eq_true_eq, beq_iff_eq]
      constructor
      · rintro ⟨_, h2⟩
        exact h2
      · intro h
        exact ⟨by rw [h], h⟩
    have hmapeq : y.dedup.map ((fun ab : ℤ × ℤ => countPair ((shiftTrue y).zip y) ab.1 ab.2)
          ∘ fun a => (a - zmin y, a))
        = y.dedup.map fun x => y.count x := by
      apply List.map_congr_left
      intro a _
      exact hcp a
    rw [hmapeq, List.sum_map_count_dedup_eq_length]
  have hub : matchCount ((shiftTrue y).zip y)
        ((shiftTrue y).dedup.zip (chosenCols (shiftTrue y) y)) ≤ y.length := by
    have h1 : matchCount ((shiftTrue y).zip y)
        ((shiftTrue y).dedup.zip (chosenCols (shiftTrue y) y))
        ≤ ((shiftTrue y).zip y).length := List.countP_le_length _
    have h2 : ((shiftTrue y).zip y).length = y.length := by
      rw [List.length_zip, shiftTrue, List.length_map, min_self]
    rw [← h2]
    exact h1
  have hAmc : overlapTotal ((shiftTrue y).zip y)
        ((shiftTrue y).dedup.zip (chosenCols (shiftTrue y) y))
      = matchCount ((shiftTrue y).zip y)
        ((shiftTrue y).dedup.zip (chosenCols (shiftTrue y) y)) :=
    overlapTotal_eq_matchCount _ _ (by rw [hsndC]; exact hqnd)
  have hge : y.length ≤ matchCount ((shiftTrue y).zip y)
        ((shiftTrue y).dedup.zip (chosenCols (shiftTrue y) y)) := by
    rw [← hAmc, ← hdiag]
    exact chosenCols_max _ _ (List.mem_permutations.2 (List.Perm.refl y.dedup))
  have hmc : matchCount ((shiftTrue y).zip y)
        ((shiftTrue y).dedup.zip (chosenCols (shiftTrue y) y)) = y.length :=
    le_antisymm hub hge
  have hall : ∀ tp ∈ (shiftTrue y).zip y,
      relabelFind ((shiftTrue y).dedup.zip (chosenCols (shiftTrue y) y)) tp.2
        = some tp.1 := by
    have hlenzip : ((shiftTrue y).zip y).length = y.length := by
      rw [List.length_zip, shiftTrue, List.length_map, min_self]
    have hcc := hmc
    rw [matchCount] at hcc
    rw [← hlenzip] at hcc
    intro tp htp
    exact of_decide_eq_true (List.countP_eq_length.1 hcc tp htp)
  have hnp : newPredict (shiftTrue y) y = shiftTrue y := by
    rw [newPredict]
    apply map_eq_of_zip _ (by rw [shiftTrue, List.length_map])
    intro tp htp
    rw [relabel, hall tp htp, Option.getD_some]
  have hcl : (shiftTrue y).length = y.length := by
    rw [shiftTrue, List.length_map]
  have hacc : accScore (shiftTrue y) (shiftTrue y) y.length = 1 := by
    rw [accScore]
    have hzz : (shiftTrue y).zip (shiftTrue y) = (shiftTrue y).map fun a => (a, a) :=
      zip_self_eq_map _
    have hcount : ((shiftTrue y).zip (shiftTrue y)).countP (fun tp => decide (tp.1 = tp.2))
        = y.length := by
      rw [hzz, List.countP_map]
      rw [show ((fun tp : ℤ × ℤ => decide (tp.1 = tp.2)) ∘ fun a : ℤ => (a, a))
          = fun _ => true from funext fun a => by simp]
      rw [List.countP_true, hcl]
    rw [hcount]
    exact div_self (Nat.cast_ne_zero.2 (fun h0 => hne (List.length_eq_zero.1 h0)))
  have hf1 : f1Macro (shiftTrue y) (shiftTrue y) = 1 :=
    f1Macro_self _ (fun h => hne (List.map_eq_nil_iff.1 h))
  rw [cluster_acc_eq_some y y (by rw [hrep]; exact hcard'), hrep, hnp, hacc, hf1]

/-- Witness for `cluster_acc_identity` on `y = [3,3,5]` (nonzero minimum). -/
theorem cluster_acc_identity_witness :
    (([3,3,5] : List ℤ) ≠ []) ∧ cluster_acc [3,3,5] [3,3,5] = some (1, 1) :=
  ⟨by decide, cluster_acc_identity [3,3,5] (by decide)⟩
